import Mathlib

/-!
Verification development for the `git_rs` object store.

The source is modelled at byte level: every Rust `Vec<u8>` and every Rust
`String`/`&str` is represented as a `List Nat` of its bytes (`Bytes`).  Rust's
`str` pattern searches (`find`, `split`, `splitn`, `lines`) operate on UTF-8
bytes and the separators used by the source are pure ASCII, so the byte-level
renditions below follow the source operation for operation.  A Rust `panic!`,
failing `unwrap()` or out-of-bounds index is modelled as `Option.none` (for
functions whose Rust type is not `Result`) or as `Except.error .panicked` (for
functions returning `Result`): a panic aborts the process instead of returning
a value, which is observably different from a typed `Err`.
-/

/-- Byte strings: each entry is one byte, 0 ≤ b < 256 for real inputs. -/
abbrev Bytes := List Nat

/-- UTF-8 bytes of an ASCII string literal (used only on ASCII literals,
where the UTF-8 encoding is the list of code points). -/
def bytesOfAscii (s : String) : Bytes := s.data.map Char.toNat

/-- The UTF-8 acceptor automaton: `k` continuation bytes are still expected,
the next of which must lie in `lo..hi` (the first continuation byte of a
sequence has a restricted range, ruling out overlong forms, surrogates and
code points above U+10FFFF; later ones are plain `0x80..0xBF`). -/
def validUTF8From : Nat → Nat → Nat → Bytes → Bool
  | 0, _, _, [] => true
  | _ + 1, _, _, [] => false
  | 0, _, _, b :: r =>
    if b ≤ 0x7F then validUTF8From 0 0 0 r
    else if 0xC2 ≤ b && b ≤ 0xDF then validUTF8From 1 0x80 0xBF r
    else if b = 0xE0 then validUTF8From 2 0xA0 0xBF r
    else if b = 0xED then validUTF8From 2 0x80 0x9F r
    else if 0xE1 ≤ b && b ≤ 0xEF then validUTF8From 2 0x80 0xBF r
    else if b = 0xF0 then validUTF8From 3 0x90 0xBF r
    else if 0xF1 ≤ b && b ≤ 0xF3 then validUTF8From 3 0x80 0xBF r
    else if b = 0xF4 then validUTF8From 3 0x80 0x8F r
    else false
  | k + 1, lo, hi, c :: r =>
    if lo ≤ c && c ≤ hi then validUTF8From k 0x80 0xBF r
    else false

/-- Exact UTF-8 validity, as enforced by Rust's `String::from_utf8`. -/
def validUTF8 (l : Bytes) : Bool := validUTF8From 0 0 0 l

/-- Index of the first occurrence of byte `b` (Rust `iter().position(|x| *x == b)`). -/
def idxOf (b : Nat) : Bytes → Option Nat
  | [] => none
  | c :: r => if c = b then some 0 else (idxOf b r).map (· + 1)

/-- Split at the first occurrence of byte `b`, dropping the separator
(Rust `splitn(2, b)` restricted to the two-part view; `none` when absent). -/
def splitFirstByte (b : Nat) : Bytes → Option (Bytes × Bytes)
  | [] => none
  | c :: r =>
    if c = b then some ([], r)
    else (splitFirstByte b r).map (fun p => (c :: p.1, p.2))

/-- Split on every occurrence of byte `b` (Rust `split(b)`); never returns `[]`. -/
def splitOnByte (b : Nat) : Bytes → List Bytes
  | [] => [[]]
  | c :: r =>
    if c = b then [] :: splitOnByte b r
    else
      match splitOnByte b r with
      | s :: ss => (c :: s) :: ss
      | [] => [[c]]

/-- Does `l` start with the byte sequence `pat`? -/
def beginsWith : Bytes → Bytes → Bool
  | [], _ => true
  | _ :: _, [] => false
  | p :: ps, x :: xs => p = x && beginsWith ps xs

/-- Split at the first occurrence of the byte sequence `sep`, dropping the
separator (Rust `splitn(2, sep)` / the first element pair of `split(sep)`). -/
def splitFirstSeq (sep : Bytes) : Bytes → Option (Bytes × Bytes)
  | [] => if beginsWith sep [] then some ([], []) else none
  | c :: r =>
    if beginsWith sep (c :: r) then some ([], (c :: r).drop sep.length)
    else (splitFirstSeq sep r).map (fun p => (c :: p.1, p.2))

/-- Model of Rust `str::split_inclusive('\n')`: segments keep their trailing newline;
the final segment may lack one; the empty string yields no segments. -/
def splitInclusiveLF : Bytes → List Bytes
  | [] => []
  | c :: r =>
    if c = 10 then [c] :: splitInclusiveLF r
    else
      match splitInclusiveLF r with
      | s :: ss => (c :: s) :: ss
      | [] => [[c]]

/-- Strip one trailing `\n`, and then one trailing `\r` if the `\n` was
present — the per-line cleanup performed by Rust `str::lines`. -/
def dropLineEnding (l : Bytes) : Bytes :=
  match l.reverse with
  | 10 :: 13 :: r => r.reverse
  | 10 :: r => r.reverse
  | _ => l

/-- Rust `str::lines` on the UTF-8 bytes of a string. -/
def rustLines (l : Bytes) : List Bytes := (splitInclusiveLF l).map dropLineEnding

/-- One step of right-trimming on the reversed byte list: recognizes the UTF-8
encodings of every Unicode `White_Space` character from the end. -/
def trimEndRev : Bytes → Bytes
  | 9 :: r => trimEndRev r
  | 10 :: r => trimEndRev r
  | 11 :: r => trimEndRev r
  | 12 :: r => trimEndRev r
  | 13 :: r => trimEndRev r
  | 32 :: r => trimEndRev r
  | 0x85 :: 0xC2 :: r => trimEndRev r          -- U+0085
  | 0xA0 :: 0xC2 :: r => trimEndRev r          -- U+00A0
  | 0x80 :: 0x9A :: 0xE1 :: r => trimEndRev r  -- U+1680
  | b :: 0x80 :: 0xE2 :: r =>
    -- U+2000..U+200A, U+2028, U+2029, U+202F
    if (0x80 ≤ b && b ≤ 0x8A) || b = 0xA8 || b = 0xA9 || b = 0xAF then trimEndRev r
    else b :: 0x80 :: 0xE2 :: r
  | 0x9F :: 0x81 :: 0xE2 :: r => trimEndRev r  -- U+205F
  | 0x80 :: 0x80 :: 0xE3 :: r => trimEndRev r  -- U+3000
  | l => l

/-- Rust `str::trim_end` on the UTF-8 bytes of a (valid UTF-8) string. -/
def trimEnd (l : Bytes) : Bytes := (trimEndRev l.reverse).reverse

/-- Decimal digit value of an ASCII byte. -/
def digitVal (c : Nat) : Option Nat := if 48 ≤ c && c ≤ 57 then some (c - 48) else none

/-- Accumulate decimal digits; `none` on the first non-digit byte. -/
def parseDigitsAux : Nat → Bytes → Option Nat
  | acc, [] => some acc
  | acc, c :: r =>
    match digitVal c with
    | some d => parseDigitsAux (acc * 10 + d) r
    | none => none

/-- Rust `str::parse::<usize>()` on the UTF-8 bytes of a string: an optional
leading `+`, then a non-empty run of decimal digits, value bounded by
`usize::MAX` (64-bit target). -/
def parseUsize (l : Bytes) : Option Nat :=
  let l2 := match l with
    | 43 :: r => r
    | _ => l
  if l2 = [] then none
  else
    match parseDigitsAux 0 l2 with
    | some n => if n ≤ 2 ^ 64 - 1 then some n else none
    | none => none

/-- Decimal digits (ASCII) of `n`, no leading zeros — the bytes Rust
`format!("{}", n)` produces for an unsigned integer.  Structural recursion on
a fuel bound so that the definition reduces by `rfl` on concrete inputs. -/
def natDigitsF : Nat → Nat → Bytes
  | 0, _ => []
  | f + 1, n =>
    if n < 10 then [48 + n]
    else natDigitsF f (n / 10) ++ [48 + n % 10]

/-- Decimal ASCII representation of `n` (see `natDigitsF`). -/
def natDigits (n : Nat) : Bytes := natDigitsF (n + 1) n

/-- The object model of `src/enums.rs` (`enum GitObject`): every variant keeps
its raw payload; `Commit` additionally carries the fields parsed by
`create_commit`. -/
inductive GitObject where
  | blob (raw : Bytes)
  | tree (raw : Bytes)
  | tag (raw : Bytes)
  | commit (raw : Bytes) (tree : Bytes) (parent : List Bytes) (author : Bytes)
      (committer : Bytes) (gpgsig : Option Bytes) (message : Bytes)
deriving DecidableEq

/-- The raw payload of an object (the `raw_data` field of every variant). -/
def gitRawData : GitObject → Bytes
  | .blob raw => raw
  | .tree raw => raw
  | .tag raw => raw
  | .commit raw _ _ _ _ _ _ => raw

/-- Model of `get_git_type`: the ASCII type name of a variant, as bytes. -/
def gitTypeBytes : GitObject → Bytes
  | .blob _ => bytesOfAscii "blob"
  | .tree _ => bytesOfAscii "tree"
  | .tag _ => bytesOfAscii "tag"
  | .commit _ _ _ _ _ _ _ => bytesOfAscii "commit"

/-- The parsed parent list of a commit (empty for other variants). -/
def commitParents : GitObject → List Bytes
  | .commit _ _ p _ _ _ _ => p
  | _ => []

/-- Association-list model of the `HashMap<&str, String>` used by
`create_commit`: lookup of the first binding for a key. -/
def alookup (m : List (Bytes × Bytes)) (k : Bytes) : Option Bytes :=
  match m with
  | [] => none
  | e :: r => if e.1 = k then some e.2 else alookup r k

/-- Remove every binding for `k`. -/
def aremove : List (Bytes × Bytes) → Bytes → List (Bytes × Bytes)
  | [], _ => []
  | e :: r, k => if e.1 = k then aremove r k else e :: aremove r k

/-- Model of `HashMap::insert`: bind `k` to `v`, replacing any previous binding. -/
def ains (m : List (Bytes × Bytes)) (k : Bytes) (v : Bytes) : List (Bytes × Bytes) :=
  (k, v) :: aremove m k

/-- The bytes of the key `"parent"`. -/
def parentKey : Bytes := bytesOfAscii "parent"

/-- Key/value split of one header line: Rust `line.splitn(2, ' ')`; lines
without a space yield `none` and are skipped by the parser. -/
def lineKV (line : Bytes) : Option (Bytes × Bytes) := splitFirstByte 32 line

/-- One iteration of the header loop of `create_commit`: skip space-free
lines; on a repeated `parent` key join the old and new value with a space;
otherwise insert the key/value pair. -/
def processLine (m : List (Bytes × Bytes)) (line : Bytes) : List (Bytes × Bytes) :=
  match lineKV line with
  | none => m
  | some (k, v) =>
    if k = parentKey && (alookup m parentKey).isSome then
      ains m parentKey ((alookup m parentKey).getD [] ++ 32 :: v)
    else ains m k v

/-- Model of `metadata.get(k).unwrap_or(&String::new())`. -/
def lookupField (m : List (Bytes × Bytes)) (k : Bytes) : Bytes := (alookup m k).getD []

/-- Model of `split(' ')` followed by dropping empty tokens — the projection
`create_commit` applies to the accumulated `parent` value. -/
def splitFilter32 (v : Bytes) : List Bytes := (splitOnByte 32 v).filter (fun s => decide ¬ s = [])

/-- The bytes of the `"\ngpgsig"` marker. -/
def gpgsigMarker : Bytes := 10 :: bytesOfAscii "gpgsig"

/-- Model of `big_split[0].split("\ngpgsig")`, of which the source reads only parts 0
and 1 and the length test `len >= 2`: part 0 is the text before the first
marker, part 1 the text between the first and second marker (`none` when the
marker is absent). -/
def gpgsigSplit (hdr : Bytes) : Bytes × Option Bytes :=
  match splitFirstSeq gpgsigMarker hdr with
  | none => (hdr, none)
  | some (h0, rest) =>
    match splitFirstSeq gpgsigMarker rest with
    | none => (h0, some rest)
    | some (h1, _) => (h0, some h1)

/-- Model of `create_commit` (src/enums.rs): `none` models a panic — the
`String::from_utf8(..).unwrap()` on a non-UTF-8 payload, or the out-of-bounds
`big_split[1]` when the payload has no `"\n\n"` header/body separator. -/
def createCommit (data : Bytes) : Option GitObject :=
  if validUTF8 data then
    match splitFirstSeq [10, 10] data with
    | none => none
    | some (hdr, body) =>
      let message := trimEnd body
      let parts := gpgsigSplit hdr
      let md := (rustLines parts.1).foldl processLine []
      some (.commit data (lookupField md (bytesOfAscii "tree"))
        (splitFilter32 (lookupField md parentKey))
        (lookupField md (bytesOfAscii "author"))
        (lookupField md (bytesOfAscii "committer"))
        parts.2 message)
  else none

/-- Model of `GitObject::serialize`: the canonical form
`"<type> <len>\0<payload>"` as bytes; `none` models the panic of
`String::from_utf8(data).unwrap()` on a non-UTF-8 payload. -/
def serializeObj (o : GitObject) : Option Bytes :=
  let data := gitRawData o
  if validUTF8 data then
    some (gitTypeBytes o ++ 32 :: (natDigits data.length ++ 0 :: data))
  else none

instance {m n : Type} [DecidableEq m] [DecidableEq n] : DecidableEq (Except m n) := fun x y =>
  match x, y with
  | .ok a, .ok b => if h : a = b then .isTrue (by rw [h]) else .isFalse (by simp [h])
  | .error a, .error b => if h : a = b then .isTrue (by rw [h]) else .isFalse (by simp [h])
  | .ok _, .error _ => .isFalse (by simp)
  | .error _, .ok _ => .isFalse (by simp)

/-- The failure modes of the store, one constructor per `anyhow!` message of
the source, plus `panicked` for aborts that are not typed errors. -/
inductive GitErr where
  | failedDecompress
  | failedFindSpace
  | failedParseFormat
  | failedFindNul
  | failedParseSize
  | malformedObject
  | unknownType
  | objectAlreadyExists
  | objectNotFound
  | notAFile
  | panicked
deriving DecidableEq

/-- The codec-level part of `parse_from_raw` (src/enums.rs, after zlib
decompression): locate the first space and the first NUL after it, parse the
declared decimal length, check it against the remaining byte count, and
return the type-name bytes together with the payload.
`.error .panicked` models the `.parse::<usize>().unwrap()` panic on a digit
run that is not a valid decimal number. -/
def decodeRaw (raw : Bytes) : Except GitErr (Bytes × Bytes) :=
  match idxOf 32 raw with
  | none => .error .failedFindSpace
  | some x =>
    let fmtB := raw.take x
    if validUTF8 fmtB then
      match idxOf 0 (raw.drop (x + 1)) with
      | none => .error .failedFindNul
      | some p =>
        let y := 1 + x + p
        let sizeB := (raw.drop (x + 1)).take p
        if validUTF8 sizeB then
          match parseUsize sizeB with
          | none => .error .panicked
          | some size =>
            if size = raw.length - y - 1 then .ok (fmtB, raw.drop (y + 1))
            else .error .malformedObject
        else .error .failedParseSize
    else .error .failedParseFormat

/-- Model of `parse_from_bytes` (src/enums.rs): dispatch the validated payload on the
type name; a panic inside `create_commit` is surfaced as `.panicked`. -/
def parseFromBytes (fmt : Bytes) (data : Bytes) : Except GitErr GitObject :=
  if fmt = bytesOfAscii "commit" then
    match createCommit data with
    | some c => .ok c
    | none => .error .panicked
  else if fmt = bytesOfAscii "blob" then .ok (.blob data)
  else if fmt = bytesOfAscii "tree" then .ok (.tree data)
  else if fmt = bytesOfAscii "tag" then .ok (.tag data)
  else .error .unknownType

/-- Model of `GitObject::new` (src/enums.rs): construct an object from working-tree
bytes and a caller-supplied type name; `none` models the
`panic!("Unknown type")` arm and panics inside `create_commit`.  Note: the
`"blob"` arm stores `data` unchanged — it does not call `crlf_to_lf`. -/
def gitObjectNew (data : Bytes) (type : String) : Option GitObject :=
  match type with
  | "blob" => some (.blob data)
  | "tree" => some (.tree data)
  | "commit" => createCommit data
  | "tag" => some (.tag data)
  | _ => none

/-- Model of `crlf_to_lf` (src/utils.rs): while the buffer is non-empty, emit `\n` and
drop two bytes when it starts with `\r\n`, else emit the first byte; `none`
models the out-of-bounds `data[1]` read when the buffer is exactly `[\r]`. -/
def crlfToLf : Bytes → Option Bytes
  | [] => some []
  | [b] => if b = 13 then none else some [b]
  | b :: c :: r =>
    if b = 13 then
      if c = 10 then (crlfToLf r).map (10 :: ·)
      else (crlfToLf (c :: r)).map (13 :: ·)
    else (crlfToLf (c :: r)).map (b :: ·)

/-- Modelled from the spec: "CRLF byte pairs (0x0D 0x0A) are normalized to a
single LF (0x0A) byte" — greedy left-to-right replacement of each CRLF pair
by LF. -/
def crlfSpec : Bytes → Bytes
  | [] => []
  | [b] => [b]
  | b :: c :: r =>
    if b = 13 then
      if c = 10 then 10 :: crlfSpec r
      else 13 :: crlfSpec (c :: r)
    else b :: crlfSpec (c :: r)

/-- Model of `GitBlob::new` (src/object.rs): the trait-object draft of blob creation,
which does pass the working-tree bytes through `crlf_to_lf`. -/
def gitBlobNew (data : Bytes) : Option GitObject := (crlfToLf data).map .blob

/-- A filesystem entry below the store root: a directory, or a file with its
byte contents. -/
inductive FSEntry where
  | dir
  | file (contents : Bytes)
deriving DecidableEq

/-- A path below `.git`: the list of path components produced by
`repo_git_path_vec`, each component the bytes of one segment. -/
abbrev FPath := List Bytes

/-- The on-disk state below `.git`, as a finite path/entry table. -/
abbrev FS := List (FPath × FSEntry)

/-- The entry at a path, if any. -/
def fsLookup (fs : FS) (p : FPath) : Option FSEntry :=
  match fs with
  | [] => none
  | e :: r => if e.1 = p then some e.2 else fsLookup r p

/-- Model of `Path::exists`. -/
def pathExists (fs : FS) (p : FPath) : Bool := (fsLookup fs p).isSome

/-- Model of `Path::is_file` (false for directories and for absent paths). -/
def isFile (fs : FS) (p : FPath) : Bool :=
  match fsLookup fs p with
  | some (.file _) => true
  | _ => false

/-- Bind a path to an entry, replacing any previous entry at that path. -/
def fsInsert (fs : FS) (p : FPath) (e : FSEntry) : FS :=
  if pathExists fs p then fs.map (fun x => if x.1 = p then (p, e) else x)
  else fs ++ [(p, e)]

/-- All non-empty prefixes of a path, shortest first. -/
def fsPrefixes (p : FPath) : List FPath := (List.range p.length).map (fun i => p.take (i + 1))

/-- Model of `std::fs::create_dir_all`: create every missing directory on the path;
`none` (a panic through `.unwrap()`) when a non-final or final component
already exists as a file. -/
def createDirAll (fs : FS) (p : FPath) : Option FS :=
  (fsPrefixes p).foldlM
    (fun acc pre =>
      match fsLookup acc pre with
      | none => some (fsInsert acc pre .dir)
      | some .dir => some acc
      | some (.file _) => none)
    fs

/-- Model of `Repository::repo_create_file_vec` (src/repository.rs): return the path if
it exists; otherwise take the path itself as the directory to create whenever
`is_file` is false — which is always the case for an absent path — run
`create_dir_all` on it, and only then, if the path is a file (never, at this
point), truncate it with `File::create`. -/
def repoCreateFileVec (fs : FS) (p : FPath) : Option (FS × FPath) :=
  if pathExists fs p then some (fs, p)
  else
    let parent := if isFile fs p then p.dropLast else p
    match (if pathExists fs parent then some fs else createDirAll fs parent) with
    | none => none
    | some fs1 =>
      let fs2 := if isFile fs1 p then fsInsert fs1 p (.file []) else fs1
      some (fs2, p)

/-- Model of `GitObject::write` (src/enums.rs), parameterized by the zlib compressor
(`compress_to_vec_zlib`), which the branch structure never reaches on the
executions proved below.  Steps, in source order: split the raw payload at
byte index 2 (panic when it is shorter), convert both halves to strings
(panic on invalid UTF-8), let `repo_create_file_vec` create the path
`objects/<first-2-payload-bytes>/<remaining-payload-bytes>`, serialize, and
only write a new compressed file if that path still does not exist, else fail
with `"Object already exists"`.  Returns the result together with the store
state left behind. -/
def writeObj (compressFn : Bytes → Bytes) (o : GitObject) (fs : FS) :
    Except GitErr Unit × FS :=
  let data := gitRawData o
  if data.length < 2 then (.error .panicked, fs)
  else
    let before := data.take 2
    let after := data.drop 2
    if validUTF8 before && validUTF8 after then
      match repoCreateFileVec fs [bytesOfAscii "objects", before, after] with
      | none => (.error .panicked, fs)
      | some (fs1, p) =>
        match serializeObj o with
        | none => (.error .panicked, fs1)
        | some enc =>
          if pathExists fs1 p then (.error .objectAlreadyExists, fs1)
          else (.ok (), fsInsert fs1 p (.file (compressFn enc)))
    else (.error .panicked, fs)

/-- A store root holding only the empty `objects` directory — the state
`Repository::create` leaves below `.git` as far as the object store is
concerned. -/
def store0 : FS := [([bytesOfAscii "objects"], .dir)]

/-- Model of `Set::add` (src/utils.rs): push unless already contained. -/
def setAdd (s : List Bytes) (x : Bytes) : List Bytes := if x ∈ s then s else s ++ [x]

/-- Model of `Set::append`: `add` every element of the other vector in order. -/
def setAppend (s : List Bytes) (xs : List Bytes) : List Bytes := xs.foldl setAdd s

/-- The `log` loop of `src/main.rs`, parameterized by the store read
(`read_from_sha1`) and a fuel bound: pop the last pending address, read it
(`none` models the `.unwrap()` panic on a read failure and the
"Object is not a commit!" error), record the emitted address, and `Set::append`
the commit's parents onto the pending set.  Fuel exhaustion (`none`) models
non-termination. -/
def logRun (readObj : Bytes → Option GitObject) :
    Nat → List Bytes → List Bytes → Option (List Bytes)
  | 0, _, _ => none
  | fuel + 1, pending, emitted =>
    match pending.getLast? with
    | none => some emitted
    | some last =>
      match readObj last with
      | some (.commit _ _ parent _ _ _ _) =>
        logRun readObj fuel (setAppend pending.dropLast parent) (emitted ++ [last])
      | _ => none

/-- A four-commit diamond history: `A` is a merge commit with parents `B` and
`C`, both of which have the single shared parent `D`.  The commit objects are
produced by the commit parser itself from their payloads. -/
def diamondStore (a : Bytes) : Option GitObject :=
  if a = [65] then createCommit (bytesOfAscii "tree t\nparent B\nparent C\n\nmerge")
  else if a = [66] then createCommit (bytesOfAscii "tree t\nparent D\n\nleft")
  else if a = [67] then createCommit (bytesOfAscii "tree t\nparent D\n\nright")
  else if a = [68] then createCommit (bytesOfAscii "tree t\n\nroot")
  else none

/-- A two-commit cyclic parent chain (malformed history): `A` lists `B` as
its parent and `B` lists `A`. -/
def cycleStore (a : Bytes) : Option GitObject :=
  if a = [65] then createCommit (bytesOfAscii "parent B\n\nx")
  else if a = [66] then createCommit (bytesOfAscii "parent A\n\ny")
  else none

/-- The value of every `parent` header line of a line list, in encounter
order (a `parent` line is one whose first space-split token is `parent`). -/
def parentValues (lns : List Bytes) : List Bytes :=
  lns.filterMap (fun l =>
    match lineKV l with
    | some (k, v) => if k = parentKey then some v else none
    | none => none)

/-- The line list `create_commit` scans for a payload: the lines of the
signature-free part of the header block (empty when the payload has no
header/body separator). -/
def headerLinesOf (data : Bytes) : List Bytes :=
  match splitFirstSeq [10, 10] data with
  | some (hdr, _) => rustLines (gpgsigSplit hdr).1
  | none => []

/-- The accumulated `parent` map entry after processing a list of parent
values starting from `o`: each new value is joined to the old entry with a
single space. -/
def joinSpace (o : Option Bytes) (vs : List Bytes) : Option Bytes :=
  vs.foldl
    (fun acc v =>
      some (match acc with
        | none => v
        | some a => a ++ 32 :: v))
    o

theorem alookup_aremove (m : List (Bytes × Bytes)) (k k2 : Bytes) (h : ¬ k = k2) :
    alookup (aremove m k) k2 = alookup m k2 := by
  induction m with
  | nil => rfl
  | cons e r ih =>
    by_cases he : e.1 = k
    · have hk2 : ¬ e.1 = k2 := by rw [he]; exact h
      rw [aremove, if_pos he, ih, alookup, if_neg hk2]
    · rw [aremove, if_neg he]
      by_cases he2 : e.1 = k2
      · rw [alookup, if_pos he2, alookup, if_pos he2]
      · rw [alookup, if_neg he2, alookup, if_neg he2, ih]

theorem alookup_ains (m : List (Bytes × Bytes)) (k v k2 : Bytes) :
    alookup (ains m k v) k2 = if k = k2 then some v else alookup m k2 := by
  by_cases h : k = k2
  · rw [ains, alookup, if_pos h, if_pos h]
  · rw [ains, alookup, if_neg h, if_neg h, alookup_aremove m k k2 h]

theorem fold_processLine_parent (lns : List Bytes) :
    ∀ m, alookup (lns.foldl processLine m) parentKey =
      joinSpace (alookup m parentKey) (parentValues lns) := by
  induction lns with
  | nil => intro m; rfl
  | cons l ls ih =>
    intro m
    rw [List.foldl_cons]
    cases hkv : lineKV l with
    | none =>
      have hp : processLine m l = m := by rw [processLine, hkv]
      have hv : parentValues (l :: ls) = parentValues ls := by
        simp [parentValues, List.filterMap_cons, hkv]
      rw [hp, hv, ih]
    | some kv =>
      obtain ⟨k, v⟩ := kv
      by_cases hk : k = parentKey
      · have hv : parentValues (l :: ls) = v :: parentValues ls := by
          simp [parentValues, List.filterMap_cons, hkv, hk]
        cases ho : alookup m parentKey with
        | none =>
          have hp : processLine m l = ains m parentKey v := by
            rw [processLine, hkv, ho]
            simp [hk]
          rw [hp, ih, hv, alookup_ains]
          simp [joinSpace, ho]
        | some a =>
          have hp : processLine m l = ains m parentKey (a ++ 32 :: v) := by
            rw [processLine, hkv, ho]
            simp [hk]
          rw [hp, ih, hv, alookup_ains]
          simp [joinSpace, ho]
      · have hv : parentValues (l :: ls) = parentValues ls := by
          simp [parentValues, List.filterMap_cons, hkv, hk]
        have hp : processLine m l = ains m k v := by
          rw [processLine, hkv]
          simp [hk]
        rw [hp, ih, hv, alookup_ains, if_neg hk]

theorem splitOnByte_ne_nil (b : Nat) (l : Bytes) : splitOnByte b l ≠ [] := by
  cases l with
  | nil => simp [splitOnByte]
  | cons c r =>
    by_cases h : c = b
    · simp [splitOnByte, h]
    · rw [splitOnByte, if_neg h]
      cases hs : splitOnByte b r with
      | nil => exact absurd hs (splitOnByte_ne_nil b r)
      | cons s ss => simp

theorem splitOnByte_append (k : Nat) (a c : Bytes) :
    splitOnByte k (a ++ k :: c) = splitOnByte k a ++ splitOnByte k c := by
  induction a with
  | nil =>
    have e1 : splitOnByte k (k :: c) = [] :: splitOnByte k c := by
      rw [splitOnByte, if_pos rfl]
    rw [List.nil_append, e1, splitOnByte]
    rfl
  | cons x a ih =>
    by_cases h : x = k
    · have e1 : splitOnByte k (x :: (a ++ k :: c)) = [] :: splitOnByte k (a ++ k :: c) := by
        rw [splitOnByte, if_pos h]
      have e2 : splitOnByte k (x :: a) = [] :: splitOnByte k a := by
        rw [splitOnByte, if_pos h]
      rw [List.cons_append, e1, e2, ih]
      rfl
    · cases hs : splitOnByte k a with
      | nil => exact absurd hs (splitOnByte_ne_nil k a)
      | cons s ss =>
        have e1 : splitOnByte k (x :: (a ++ k :: c)) =
            match splitOnByte k (a ++ k :: c) with
            | s :: ss => (x :: s) :: ss
            | [] => [[x]] := by
          rw [splitOnByte, if_neg h]
        have e2 : splitOnByte k (x :: a) =
            match splitOnByte k a with
            | s :: ss => (x :: s) :: ss
            | [] => [[x]] := by
          rw [splitOnByte, if_neg h]
        rw [List.cons_append, e1, e2, ih, hs]
        rfl

theorem splitFilter32_append (a v : Bytes) :
    splitFilter32 (a ++ 32 :: v) = splitFilter32 a ++ splitFilter32 v := by
  rw [splitFilter32, splitOnByte_append, List.filter_append]
  rfl

theorem splitFilter32_joinSpace (vs : List Bytes) :
    ∀ o : Option Bytes, splitFilter32 ((joinSpace o vs).getD []) =
      splitFilter32 (o.getD []) ++ (vs.map splitFilter32).flatten := by
  induction vs with
  | nil => intro o; simp [joinSpace]
  | cons v vs ih =>
    intro o
    cases o with
    | none =>
      have h1 : joinSpace none (v :: vs) = joinSpace (some v) vs := rfl
      rw [h1, ih]
      simp [splitFilter32, splitOnByte]
    | some a =>
      have h1 : joinSpace (some a) (v :: vs) = joinSpace (some (a ++ 32 :: v)) vs := rfl
      rw [h1, ih]
      simp [splitFilter32_append]

theorem splitOnByte_of_not_mem (v : Bytes) (h : ¬ 32 ∈ v) : splitOnByte 32 v = [v] := by
  induction v with
  | nil => rfl
  | cons c r ih =>
    have hc : ¬ c = 32 := fun hc => h (by rw [hc]; exact List.mem_cons_self 32 r)
    have hr : ¬ 32 ∈ r := fun hm => h (List.mem_cons_of_mem c hm)
    rw [splitOnByte, if_neg hc, ih hr]

theorem splitFilter32_single (v : Bytes) (hne : v ≠ []) (hmem : ¬ 32 ∈ v) :
    splitFilter32 v = [v] := by
  rw [splitFilter32, splitOnByte_of_not_mem v hmem]
  simp [hne]

theorem crlfToLf_eq_spec : ∀ l r, crlfToLf l = some r → r = crlfSpec l := by
  intro l
  induction l using crlfToLf.induct with
  | case1 =>
    intro r h
    have : ([] : Bytes) = r := Option.some.inj h
    rw [← this]
    rfl
  | case2 =>
    intro r h
    have e : crlfToLf [13] = none := by rw [crlfToLf, if_pos rfl]
    rw [e] at h
    cases h
  | case3 b hb =>
    intro r h
    have e : crlfToLf [b] = some [b] := by rw [crlfToLf, if_neg hb]
    rw [e] at h
    have : [b] = r := Option.some.inj h
    rw [← this, crlfSpec]
  | case4 r2 ih =>
    intro r h
    have e : crlfToLf (13 :: 10 :: r2) = (crlfToLf r2).map (10 :: ·) := by
      rw [crlfToLf, if_pos rfl, if_pos rfl]
    rw [e, Option.map_eq_some'] at h
    obtain ⟨t, ht, hr⟩ := h
    have es : crlfSpec (13 :: 10 :: r2) = 10 :: crlfSpec r2 := by
      rw [crlfSpec, if_pos rfl, if_pos rfl]
    rw [← hr, es, ih t ht]
  | case5 c r2 hc ih =>
    intro r h
    have e : crlfToLf (13 :: c :: r2) = (crlfToLf (c :: r2)).map (13 :: ·) := by
      rw [crlfToLf, if_pos rfl, if_neg hc]
    rw [e, Option.map_eq_some'] at h
    obtain ⟨t, ht, hr⟩ := h
    have es : crlfSpec (13 :: c :: r2) = 13 :: crlfSpec (c :: r2) := by
      rw [crlfSpec, if_pos rfl, if_neg hc]
    rw [← hr, es, ih t ht]
  | case6 b c r2 hb ih =>
    intro r h
    have e : crlfToLf (b :: c :: r2) = (crlfToLf (c :: r2)).map (b :: ·) := by
      rw [crlfToLf, if_neg hb]
    rw [e, Option.map_eq_some'] at h
    obtain ⟨t, ht, hr⟩ := h
    have es : crlfSpec (b :: c :: r2) = b :: crlfSpec (c :: r2) := by
      rw [crlfSpec, if_neg hb]
    rw [← hr, es, ih t ht]

theorem crlfToLf_isSome_of_getLast (l : Bytes) (h : l.getLast? ≠ some 13) :
    (crlfToLf l).isSome = true := by
  induction l using crlfToLf.induct with
  | case1 => rfl
  | case2 => exact absurd rfl h
  | case3 b hb =>
    have e : crlfToLf [b] = some [b] := by rw [crlfToLf, if_neg hb]
    rw [e]
    rfl
  | case4 r2 ih =>
    have e : crlfToLf (13 :: 10 :: r2) = (crlfToLf r2).map (10 :: ·) := by
      rw [crlfToLf, if_pos rfl, if_pos rfl]
    have h2 : r2.getLast? ≠ some 13 := by
      cases r2 with
      | nil => simp
      | cons a as =>
        rw [List.getLast?_cons_cons, List.getLast?_cons_cons] at h
        exact h
    rw [e]
    cases ht : crlfToLf r2 with
    | none => rw [ht] at ih; exact absurd (ih h2) (by simp)
    | some t => rfl
  | case5 c r2 hc ih =>
    have e : crlfToLf (13 :: c :: r2) = (crlfToLf (c :: r2)).map (13 :: ·) := by
      rw [crlfToLf, if_pos rfl, if_neg hc]
    have h2 : (c :: r2).getLast? ≠ some 13 := by
      rw [List.getLast?_cons_cons] at h
      exact h
    rw [e]
    cases ht : crlfToLf (c :: r2) with
    | none => rw [ht] at ih; exact absurd (ih h2) (by simp)
    | some t => rfl
  | case6 b c r2 hb ih =>
    have e : crlfToLf (b :: c :: r2) = (crlfToLf (c :: r2)).map (b :: ·) := by
      rw [crlfToLf, if_neg hb]
    have h2 : (c :: r2).getLast? ≠ some 13 := by
      rw [List.getLast?_cons_cons] at h
      exact h
    rw [e]
    cases ht : crlfToLf (c :: r2) with
    | none => rw [ht] at ih; exact absurd (ih h2) (by simp)
    | some t => rfl

theorem flatten_map_single (vs : List Bytes) (h : ∀ v ∈ vs, v ≠ [] ∧ ¬ 32 ∈ v) :
    (vs.map splitFilter32).flatten = vs := by
  induction vs with
  | nil => rfl
  | cons v vs ih =>
    have hv := h v (List.mem_cons_self v vs)
    rw [List.map_cons, List.flatten_cons, splitFilter32_single v hv.1 hv.2,
      ih (fun w hw => h w (List.mem_cons_of_mem v hw))]
    rfl

theorem createCommit_parents (data : Bytes) (c : GitObject) (h : createCommit data = some c) :
    commitParents c = ((parentValues (headerLinesOf data)).map splitFilter32).flatten := by
  by_cases hv : validUTF8 data
  · rw [createCommit, if_pos hv] at h
    cases hsp : splitFirstSeq [10, 10] data with
    | none => rw [hsp] at h; cases h
    | some pr =>
      obtain ⟨hdr, body⟩ := pr
      rw [hsp] at h
      have hc : c = GitObject.commit data
          (lookupField ((rustLines (gpgsigSplit hdr).1).foldl processLine []) (bytesOfAscii "tree"))
          (splitFilter32 (lookupField ((rustLines (gpgsigSplit hdr).1).foldl processLine []) parentKey))
          (lookupField ((rustLines (gpgsigSplit hdr).1).foldl processLine []) (bytesOfAscii "author"))
          (lookupField ((rustLines (gpgsigSplit hdr).1).foldl processLine []) (bytesOfAscii "committer"))
          (gpgsigSplit hdr).2 (trimEnd body) := (Option.some.inj h).symm
      have hlines : headerLinesOf data = rustLines (gpgsigSplit hdr).1 := by
        rw [headerLinesOf, hsp]
      rw [hc, hlines]
      show splitFilter32 (lookupField ((rustLines (gpgsigSplit hdr).1).foldl processLine []) parentKey) =
        ((parentValues (rustLines (gpgsigSplit hdr).1)).map splitFilter32).flatten
      rw [lookupField, fold_processLine_parent]
      have : alookup [] parentKey = none := rfl
      rw [this]
      have h6 := splitFilter32_joinSpace (parentValues (rustLines (gpgsigSplit hdr).1)) none
      rw [h6]
      rfl
  · rw [createCommit, if_neg hv] at h
    cases h

theorem natDigitsF_mem_range : ∀ f n c, c ∈ natDigitsF f n → 48 ≤ c ∧ c ≤ 57 := by
  intro f
  induction f with
  | zero => intro n c h; simp [natDigitsF] at h
  | succ f ih =>
    intro n c h
    rw [natDigitsF] at h
    by_cases hn : n < 10
    · rw [if_pos hn] at h
      have hc : c = 48 + n := by simpa using h
      omega
    · rw [if_neg hn] at h
      rcases List.mem_append.mp h with h1 | h2
      · exact ih _ c h1
      · have hc : c = 48 + n % 10 := by simpa using h2
        have hm : n % 10 < 10 := Nat.mod_lt n (by omega)
        omega

theorem natDigitsF_stable : ∀ n f g, n ≤ f → n ≤ g → natDigitsF (f + 1) n = natDigitsF (g + 1) n := by
  intro n
  induction n using Nat.strong_induction_on with
  | _ n ih =>
    intro f g hf hg
    by_cases hn : n < 10
    · rw [natDigitsF, if_pos hn, natDigitsF, if_pos hn]
    · have hf1 : 1 ≤ f := by omega
      have hg1 : 1 ≤ g := by omega
      have hd : n / 10 < n := Nat.div_lt_self (by omega) (by omega)
      rw [natDigitsF, if_neg hn, natDigitsF, if_neg hn]
      obtain ⟨f2, rfl⟩ : ∃ f2, f = f2 + 1 := ⟨f - 1, by omega⟩
      obtain ⟨g2, rfl⟩ : ∃ g2, g = g2 + 1 := ⟨g - 1, by omega⟩
      rw [ih (n / 10) hd f2 g2 (by omega) (by omega)]

theorem natDigits_unfold (n : Nat) (h : ¬ n < 10) :
    natDigits n = natDigits (n / 10) ++ [48 + n % 10] := by
  rw [natDigits, natDigitsF, if_neg h, natDigits]
  obtain ⟨m, rfl⟩ : ∃ m, n = m + 1 := ⟨n - 1, by omega⟩
  rw [natDigitsF_stable ((m + 1) / 10) m ((m + 1) / 10) (by omega) (by omega)]

theorem parseDigitsAux_append (b : Bytes) : ∀ (a : Bytes) (acc m : Nat),
    parseDigitsAux acc a = some m → parseDigitsAux acc (a ++ b) = parseDigitsAux m b := by
  intro a
  induction a with
  | nil =>
    intro acc m h
    have hacc : acc = m := Option.some.inj h
    rw [List.nil_append, ← hacc]
  | cons c r ih =>
    intro acc m h
    cases hd : digitVal c with
    | some d =>
      have e1 : parseDigitsAux acc (c :: (r ++ b)) = parseDigitsAux (acc * 10 + d) (r ++ b) := by
        rw [parseDigitsAux, hd]
      have e2 : parseDigitsAux acc (c :: r) = parseDigitsAux (acc * 10 + d) r := by
        rw [parseDigitsAux, hd]
      rw [e2] at h
      rw [List.cons_append, e1, ih _ _ h]
    | none =>
      have e2 : parseDigitsAux acc (c :: r) = none := by rw [parseDigitsAux, hd]
      rw [e2] at h
      cases h

theorem parse_natDigits : ∀ n acc,
    parseDigitsAux acc (natDigits n) = some (acc * 10 ^ (natDigits n).length + n) := by
  intro n
  induction n using Nat.strong_induction_on with
  | _ n ih =>
    intro acc
    by_cases hn : n < 10
    · have e : natDigits n = [48 + n] := by rw [natDigits, natDigitsF, if_pos hn]
      have hd : digitVal (48 + n) = some n := by
        rw [digitVal]
        have hb : (48 ≤ 48 + n && 48 + n ≤ 57) = true := by
          simp only [Bool.and_eq_true, decide_eq_true_eq]
          omega
        rw [if_pos hb]
        congr 1
        omega
      have e1 : parseDigitsAux acc [48 + n] = some (acc * 10 + n) := by
        rw [parseDigitsAux, hd]
        rfl
      simp [e, e1]
    · have hdlt : n / 10 < n := Nat.div_lt_self (by omega) (by omega)
      have hm : n % 10 < 10 := Nat.mod_lt n (by omega)
      have hd : digitVal (48 + n % 10) = some (n % 10) := by
        rw [digitVal]
        have hb : (48 ≤ 48 + n % 10 && 48 + n % 10 ≤ 57) = true := by
          simp only [Bool.and_eq_true, decide_eq_true_eq]
          omega
        rw [if_pos hb]
        congr 1
        omega
      have e1 : ∀ m : Nat, parseDigitsAux m [48 + n % 10] = some (m * 10 + n % 10) := by
        intro m
        rw [parseDigitsAux, hd]
        rfl
      rw [natDigits_unfold n hn,
        parseDigitsAux_append _ _ _ _ (ih (n / 10) hdlt acc), e1]
      congr 1
      rw [List.length_append, List.length_singleton, pow_succ]
      have hnd : n = 10 * (n / 10) + n % 10 := (Nat.div_add_mod n 10).symm
      set L := (natDigits (n / 10)).length
      ring_nf
      omega

theorem natDigits_ne_nil (n : Nat) : natDigits n ≠ [] := by
  by_cases hn : n < 10
  · rw [natDigits, natDigitsF, if_pos hn]
    simp
  · rw [natDigits_unfold n hn]
    simp

theorem parseUsize_natDigits (n : Nat) (h : n ≤ 2 ^ 64 - 1) : parseUsize (natDigits n) = some n := by
  cases hd : natDigits n with
  | nil => exact absurd hd (natDigits_ne_nil n)
  | cons c rest =>
    have hc : 48 ≤ c ∧ c ≤ 57 := by
      apply natDigitsF_mem_range (n + 1) n
      rw [← natDigits, hd]
      exact List.mem_cons_self c rest
    have hp : parseDigitsAux 0 (natDigits n) = some n := by
      have hpn := parse_natDigits n 0
      rw [hpn]
      congr 1
      omega
    rw [hd] at hp
    have hne : ¬ (c :: rest = ([] : Bytes)) := by simp
    rw [parseUsize, hp, if_neg hne]
    · show (if n ≤ 2 ^ 64 - 1 then some n else none) = some n
      rw [if_pos h]
    · intro r heq
      rw [List.cons.injEq] at heq
      omega

theorem idxOf_append_not_mem (b : Nat) : ∀ (a r : Bytes), ¬ b ∈ a →
    idxOf b (a ++ b :: r) = some a.length := by
  intro a
  induction a with
  | nil =>
    intro r _
    rw [List.nil_append, idxOf, if_pos rfl]
    rfl
  | cons c cs ih =>
    intro r h
    have hc : ¬ c = b := fun e => h (by rw [e]; exact List.mem_cons_self b cs)
    have hcs : ¬ b ∈ cs := fun m => h (List.mem_cons_of_mem c m)
    rw [List.cons_append, idxOf, if_neg hc, ih r hcs]
    rfl

theorem takeLen_append : ∀ (a r : Bytes), (a ++ r).take a.length = a := by
  intro a
  induction a with
  | nil => intro r; rfl
  | cons c cs ih =>
    intro r
    rw [List.cons_append, List.length_cons, List.take_succ_cons, ih]

theorem dropLen1_append : ∀ (a : Bytes) (x : Nat) (r : Bytes),
    (a ++ x :: r).drop (a.length + 1) = r := by
  intro a
  induction a with
  | nil => intro x r; rfl
  | cons c cs ih =>
    intro x r
    rw [List.cons_append, List.length_cons, List.drop_succ_cons, ih]

theorem validUTF8_of_ascii : ∀ l : Bytes, (∀ c ∈ l, c ≤ 127) → validUTF8 l = true := by
  intro l
  induction l with
  | nil => intro _; rfl
  | cons b r ih =>
    intro h
    have hb : b ≤ 127 := h b (List.mem_cons_self b r)
    have e : validUTF8 (b :: r) =
        (if b ≤ 0x7F then validUTF8From 0 0 0 r
        else if 0xC2 ≤ b && b ≤ 0xDF then validUTF8From 1 0x80 0xBF r
        else if b = 0xE0 then validUTF8From 2 0xA0 0xBF r
        else if b = 0xED then validUTF8From 2 0x80 0x9F r
        else if 0xE1 ≤ b && b ≤ 0xEF then validUTF8From 2 0x80 0xBF r
        else if b = 0xF0 then validUTF8From 3 0x90 0xBF r
        else if 0xF1 ≤ b && b ≤ 0xF3 then validUTF8From 3 0x80 0xBF r
        else if b = 0xF4 then validUTF8From 3 0x80 0x8F r
        else false) := rfl
    rw [e, if_pos hb]
    exact ih (fun c hc => h c (List.mem_cons_of_mem b hc))

theorem decodeRaw_of_canonical (fmt digits data : Bytes)
    (hfm : ¬ 32 ∈ fmt) (hfv : validUTF8 fmt = true)
    (hdm : ¬ 0 ∈ digits) (hdv : validUTF8 digits = true)
    (hp : parseUsize digits = some data.length) :
    decodeRaw (fmt ++ 32 :: (digits ++ 0 :: data)) = .ok (fmt, data) := by
  have h1 : idxOf 32 (fmt ++ 32 :: (digits ++ 0 :: data)) = some fmt.length :=
    idxOf_append_not_mem 32 fmt _ hfm
  have htake : (fmt ++ 32 :: (digits ++ 0 :: data)).take fmt.length = fmt :=
    takeLen_append fmt _
  have hdrop : (fmt ++ 32 :: (digits ++ 0 :: data)).drop (fmt.length + 1) = digits ++ 0 :: data :=
    dropLen1_append fmt 32 _
  have h2 : idxOf 0 (digits ++ 0 :: data) = some digits.length :=
    idxOf_append_not_mem 0 digits _ hdm
  have htake2 : (digits ++ 0 :: data).take digits.length = digits :=
    takeLen_append digits _
  have hlen : (fmt ++ 32 :: (digits ++ 0 :: data)).length =
      fmt.length + 1 + digits.length + 1 + data.length := by
    simp [List.length_append]
    omega
  have harith : 1 + fmt.length + digits.length + 1 =
      (fmt.length + 1) + (digits.length + 1) := by omega
  have hdrop2 : (fmt ++ 32 :: (digits ++ 0 :: data)).drop (1 + fmt.length + digits.length + 1) =
      data := by
    rw [harith, ← List.drop_drop, hdrop, dropLen1_append]
  have hcond : data.length =
      (fmt ++ 32 :: (digits ++ 0 :: data)).length - (1 + fmt.length + digits.length) - 1 := by
    rw [hlen]
    omega
  rw [decodeRaw, h1]
  simp only [htake, hfv, if_true, hdrop, h2, htake2, hdv, hp]
  rw [if_pos hcond, hdrop2]

theorem serialize_decode_roundtrip (o : GitObject) (s : Bytes)
    (hs : serializeObj o = some s) (hlen : (gitRawData o).length ≤ 2 ^ 64 - 1) :
    decodeRaw s = .ok (gitTypeBytes o, gitRawData o) := by
  have hv : validUTF8 (gitRawData o) = true := by
    by_cases hv : validUTF8 (gitRawData o)
    · exact hv
    · rw [serializeObj, if_neg hv] at hs
      cases hs
  rw [serializeObj, if_pos hv] at hs
  have hs2 : s =
      gitTypeBytes o ++ 32 :: (natDigits (gitRawData o).length ++ 0 :: gitRawData o) :=
    (Option.some.inj hs).symm
  rw [hs2]
  apply decodeRaw_of_canonical
  · cases o
    case blob => exact (by decide : ¬ (32 : Nat) ∈ bytesOfAscii "blob")
    case tree => exact (by decide : ¬ (32 : Nat) ∈ bytesOfAscii "tree")
    case tag => exact (by decide : ¬ (32 : Nat) ∈ bytesOfAscii "tag")
    case commit => exact (by decide : ¬ (32 : Nat) ∈ bytesOfAscii "commit")
  · cases o <;> rfl
  · intro hm
    rw [natDigits] at hm
    have hr := natDigitsF_mem_range _ _ _ hm
    omega
  · apply validUTF8_of_ascii
    intro c hc
    rw [natDigits] at hc
    have hr := natDigitsF_mem_range _ _ _ hc
    omega
  · exact parseUsize_natDigits _ hlen

theorem createCommit_isSome_iff (data : Bytes) :
    (createCommit data).isSome = true ↔
      (validUTF8 data = true ∧ (splitFirstSeq [10, 10] data).isSome = true) := by
  constructor
  · intro h
    by_cases hv : validUTF8 data
    · refine ⟨hv, ?_⟩
      rw [createCommit, if_pos hv] at h
      cases hsp : splitFirstSeq [10, 10] data with
      | none => rw [hsp] at h; simp at h
      | some pr => rfl
    · rw [createCommit, if_neg hv] at h
      simp at h
  · rintro ⟨hv, hsp⟩
    rw [createCommit, if_pos hv]
    cases he : splitFirstSeq [10, 10] data with
    | none => simp [he] at hsp
    | some pr => rfl

theorem logRun_cycle_diverges : ∀ (fuel : Nat) (acc : List Bytes),
    logRun cycleStore fuel [[65]] acc = none ∧ logRun cycleStore fuel [[66]] acc = none := by
  intro fuel
  induction fuel with
  | zero => intro acc; exact ⟨rfl, rfl⟩
  | succ f ih =>
    intro acc
    constructor
    · have e : logRun cycleStore (f + 1) [[65]] acc =
          logRun cycleStore f [[66]] (acc ++ [[65]]) := rfl
      rw [e]
      exact (ih (acc ++ [[65]])).2
    · have e : logRun cycleStore (f + 1) [[66]] acc =
          logRun cycleStore f [[65]] (acc ++ [[66]]) := rfl
      rw [e]
      exact (ih (acc ++ [[66]])).1

/-- C1: refuted as stated — evaluating `GitObject::write` for the blob
`"hello"` against a fresh store shows that the path is derived from the first
two payload bytes (`objects/he/llo`, not from the 40-hex-character digest of
the canonical form, which `write` never computes), that
`repo_create_file_vec` leaves a directory at that path, and that `write`
therefore returns `Object already exists` and persists no file at all: the
resulting store consists of directories only, whatever the compressor does. -/
theorem claim_c1_write_misplaced_and_fails : ∀ compressFn : Bytes → Bytes,
    writeObj compressFn (.blob (bytesOfAscii "hello")) store0 =
      (.error .objectAlreadyExists,
       [([bytesOfAscii "objects"], .dir),
        ([bytesOfAscii "objects", [104, 101]], .dir),
        ([bytesOfAscii "objects", [104, 101], [108, 108, 111]], .dir)]) :=
  fun _ => rfl

/-- C1 witness: the evaluation at the identity compressor. -/
theorem claim_c1_witness :
    writeObj id (.blob (bytesOfAscii "hello")) store0 =
      (.error .objectAlreadyExists,
       [([bytesOfAscii "objects"], .dir),
        ([bytesOfAscii "objects", [104, 101]], .dir),
        ([bytesOfAscii "objects", [104, 101], [108, 108, 111]], .dir)]) :=
  claim_c1_write_misplaced_and_fails id

/-- C2: refuted as stated — `serialize` panics (`String::from_utf8` unwrap)
on the constructed blob with the non-UTF-8 payload `[0xFF]`, so
`decode(encode(O))` crashes rather than returning `(type(O), payload(O))` for
that object.  For every constructed object whose payload IS valid UTF-8 (and
of `usize`-representable length), the round trip holds in general, which is
the second conjunct. -/
theorem claim_c2_roundtrip :
    serializeObj (.blob [255]) = none
    ∧ (∀ (o : GitObject) (s : Bytes), serializeObj o = some s →
        (gitRawData o).length ≤ 2 ^ 64 - 1 →
        decodeRaw s = .ok (gitTypeBytes o, gitRawData o)) :=
  ⟨rfl, serialize_decode_roundtrip⟩

/-- C2 witness: the round trip instantiated at the blob `"hi"`. -/
theorem claim_c2_witness :
    decodeRaw [98, 108, 111, 98, 32, 50, 0, 104, 105] =
      .ok (gitTypeBytes (GitObject.blob [104, 105]), gitRawData (GitObject.blob [104, 105])) :=
  claim_c2_roundtrip.2 (.blob [104, 105]) [98, 108, 111, 98, 32, 50, 0, 104, 105] (by rfl)
    (by decide)

/-- C3: refuted as stated — the FIRST write of blob `"abc"` to a fresh store
already fails with `Object already exists` (because `repo_create_file_vec`
creates a directory at the object path before `write` performs its existence
check), leaving a store of directories only; a second identical write fails
the same way and leaves the store unchanged.  No file is ever created, so
"the first write on a fresh path succeeds" is false. -/
theorem claim_c3_first_write_fails : ∀ compressFn : Bytes → Bytes,
    (writeObj compressFn (.blob (bytesOfAscii "abc")) store0).1 =
        .error .objectAlreadyExists
    ∧ ((writeObj compressFn (.blob (bytesOfAscii "abc")) store0).2).all
        (fun e => e.2 = .dir) = true
    ∧ writeObj compressFn (.blob (bytesOfAscii "abc"))
        ((writeObj compressFn (.blob (bytesOfAscii "abc")) store0).2) =
      (.error .objectAlreadyExists,
        (writeObj compressFn (.blob (bytesOfAscii "abc")) store0).2) :=
  fun _ => ⟨rfl, rfl, rfl⟩

/-- C3 witness: the evaluation at the identity compressor. -/
theorem claim_c3_witness :
    (writeObj id (.blob (bytesOfAscii "abc")) store0).1 = .error .objectAlreadyExists
    ∧ ((writeObj id (.blob (bytesOfAscii "abc")) store0).2).all
        (fun e => e.2 = .dir) = true
    ∧ writeObj id (.blob (bytesOfAscii "abc"))
        ((writeObj id (.blob (bytesOfAscii "abc")) store0).2) =
      (.error .objectAlreadyExists, (writeObj id (.blob (bytesOfAscii "abc")) store0).2) :=
  claim_c3_first_write_fails id

/-- C4: refuted as stated — a digit run that is not valid decimal
(`"blob z\0"`) makes `parse_from_raw` panic through
`.parse::<usize>().unwrap()` instead of failing with `MalformedObject`; the
other three conditions do produce typed failures: a missing space, a missing
NUL, and a declared length one larger than the payload (`"blob 6\0hello"`)
are rejected, while the well-formed `"blob 5\0hello"` decodes. -/
theorem claim_c4_decode_failure_modes :
    decodeRaw (bytesOfAscii "blob z\x00") = .error .panicked
    ∧ decodeRaw (bytesOfAscii "blob 6\x00hello") = .error .malformedObject
    ∧ decodeRaw (bytesOfAscii "blob") = .error .failedFindSpace
    ∧ decodeRaw (bytesOfAscii "blob 5") = .error .failedFindNul
    ∧ decodeRaw (bytesOfAscii "blob 5\x00hello") =
        .ok (bytesOfAscii "blob", bytesOfAscii "hello") := by
  refine ⟨rfl, rfl, rfl, rfl, rfl⟩

/-- C5: refuted as stated — on the diamond history `A → {B, C} → D` the log
loop emits `[A, C, D, B, D]`: the shared ancestor `D` is read and emitted
twice, because the `Set` dedupes only against the still-pending frontier and
forgets every address already removed and emitted. -/
theorem claim_c5_diamond_revisits_ancestor :
    logRun diamondStore 10 [[65]] [] = some [[65], [67], [68], [66], [68]]
    ∧ ([[65], [67], [68], [66], [68]] : List Bytes).count [68] = 2 := by
  refine ⟨rfl, rfl⟩

/-- C6: refuted as stated — on the payload `"tree T"`, which has no `"\n\n"`
separator, `create_commit` panics with an index-out-of-bounds on
`big_split[1]` instead of failing with a typed `MalformedCommit`; it also
panics on a non-UTF-8 payload (`[0xFF, \n, \n]`) even though the separator is
present.  The tolerance half of the claim does hold: on `"\n\n"` alone every
optional field defaults (empty `tree`/`author`/`committer`/`message`, no
parents, no signature) without failure. -/
theorem claim_c6_commit_parse_panics :
    createCommit (bytesOfAscii "tree T") = none
    ∧ createCommit [255, 10, 10] = none
    ∧ createCommit [10, 10] = some (.commit [10, 10] [] [] [] [] none []) := by
  refine ⟨rfl, rfl, rfl⟩

/-- C7 counterexample: the enum-based `GitObject::new` — the constructor the
`hash-object` command uses for ingestion — stores the working-tree bytes
`[0x0D, 0x0A]` unchanged in the blob payload, so the CRLF pair is NOT
replaced by LF there, contradicting the claim as stated. -/
theorem claim_c7_counterexample :
    gitObjectNew [13, 10] "blob" = some (.blob [13, 10])
    ∧ crlfSpec [13, 10] = [10]
    ∧ gitObjectNew [13, 10] "blob" ≠ some (.blob [10]) := by
  refine ⟨rfl, rfl, by decide⟩

/-- C7 amended: CRLF normalization happens only in the trait-based
`GitBlob::new` of src/object.rs (not in the enum-based `GitObject::new` used
by the CLI): whenever `GitBlob::new` returns (it panics on an input ending in
a lone CR), the stored payload is exactly the greedy left-to-right
replacement of each CRLF pair by LF; and the read path never reverses it —
`parse_from_bytes` returns a blob payload byte-for-byte unchanged. -/
theorem claim_c7_amended :
    (∀ data o, gitBlobNew data = some o → o = .blob (crlfSpec data))
    ∧ (∀ payload, parseFromBytes (bytesOfAscii "blob") payload = .ok (.blob payload)) := by
  constructor
  · intro data o h
    rw [gitBlobNew, Option.map_eq_some'] at h
    obtain ⟨t, ht, ho⟩ := h
    rw [← ho, crlfToLf_eq_spec data t ht]
  · intro payload
    rfl

/-- C7 witness: the amended theorem applied to the input `[A, \r, \n]` and to
the blob read path at payload `[1, 2]`. -/
theorem claim_c7_witness :
    GitObject.blob [65, 10] = .blob (crlfSpec [65, 13, 10])
    ∧ parseFromBytes (bytesOfAscii "blob") [1, 2] = .ok (.blob [1, 2]) :=
  ⟨claim_c7_amended.1 [65, 13, 10] (.blob [65, 10]) (by decide), claim_c7_amended.2 [1, 2]⟩

/-- C8: confirmed — the concrete merge-commit payload parses to exactly the
fields the claim lists: tree `T`, parents `[P1, P2]` in order, author `A`,
committer `C`, message `Merge branch`, and no signature. -/
theorem claim_c8_concrete_commit_parse :
    createCommit (bytesOfAscii "tree T\nparent P1\nparent P2\nauthor A\ncommitter C\n\nMerge branch\n") =
      some (.commit
        (bytesOfAscii "tree T\nparent P1\nparent P2\nauthor A\ncommitter C\n\nMerge branch\n")
        (bytesOfAscii "T") [bytesOfAscii "P1", bytesOfAscii "P2"] (bytesOfAscii "A")
        (bytesOfAscii "C") none (bytesOfAscii "Merge branch")) := by
  rfl

/-- C9 counterexample: the header line `"parent "` carries the value `""`,
which contains no space byte, yet the parsed parent list of
`"tree X\nparent \n\nm"` is empty — the space-free value does not appear, so
the "all n values appear in encounter order" clause is false as stated. -/
theorem claim_c9_counterexample :
    (createCommit (bytesOfAscii "tree X\nparent \n\nm")).map commitParents = some []
    ∧ parentValues (headerLinesOf (bytesOfAscii "tree X\nparent \n\nm")) = [[]]
    ∧ ([] : List Bytes) ≠ [[]] := by
  refine ⟨rfl, rfl, by decide⟩

/-- C9 amended: for every commit payload the parser accepts, the parsed
parent list equals the in-order concatenation of the values of the `parent`
lines of the scanned (signature-free) header, each split on space bytes with
empty tokens dropped; in particular, when every such value is non-empty and
contains no space byte, all values appear in encounter order. -/
theorem claim_c9_amended :
    (∀ data c, createCommit data = some c →
      commitParents c = ((parentValues (headerLinesOf data)).map splitFilter32).flatten)
    ∧ (∀ data c, createCommit data = some c →
      (∀ v ∈ parentValues (headerLinesOf data), v ≠ [] ∧ ¬ 32 ∈ v) →
      commitParents c = parentValues (headerLinesOf data)) := by
  constructor
  · exact createCommit_parents
  · intro data c h hv
    rw [createCommit_parents data c h, flatten_map_single _ hv]

/-- C9 witness: the amended theorem applied to the two-parent payload
`"parent AA\nparent BB\n\nx"`. -/
theorem claim_c9_witness :
    commitParents (GitObject.commit (bytesOfAscii "parent AA\nparent BB\n\nx") []
        [[65, 65], [66, 66]] [] [] none [120]) =
      ((parentValues (headerLinesOf (bytesOfAscii "parent AA\nparent BB\n\nx"))).map
        splitFilter32).flatten
    ∧ commitParents (GitObject.commit (bytesOfAscii "parent AA\nparent BB\n\nx") []
        [[65, 65], [66, 66]] [] [] none [120]) =
      parentValues (headerLinesOf (bytesOfAscii "parent AA\nparent BB\n\nx")) :=
  ⟨claim_c9_amended.1 (bytesOfAscii "parent AA\nparent BB\n\nx") _ (by rfl),
   claim_c9_amended.2 (bytesOfAscii "parent AA\nparent BB\n\nx") _ (by rfl) (by decide)⟩

/-- C10: confirmed — on every input that is empty or whose final byte is not
CR (0x0D), `crlf_to_lf` terminates and returns a result: the unconditional
`data[1]` read after a leading CR is then always in bounds, because the
remaining buffer is always a suffix of the input and can only shrink to a
lone `[CR]` when the input itself ends in CR. -/
theorem claim_c10_crlf_inbounds :
    ∀ l : Bytes, (l = [] ∨ l.getLast? ≠ some 13) → (crlfToLf l).isSome = true := by
  intro l h
  cases h with
  | inl he => rw [he]; rfl
  | inr hl => exact crlfToLf_isSome_of_getLast l hl

/-- C10 witness: the theorem applied to the input `[A, \r, \n]`. -/
theorem claim_c10_witness :
    (([65, 13, 10] : Bytes) = [] ∨ ([65, 13, 10] : Bytes).getLast? ≠ some 13)
    ∧ (crlfToLf [65, 13, 10]).isSome = true :=
  ⟨by decide, claim_c10_crlf_inbounds [65, 13, 10] (by decide)⟩
